import Mathlib

/-!
Verification of the orchestration core of the clusterfuzz-tools repository.

The development shallowly embeds the relevant Python code:
* `clusterfuzz/binary_providers.py` (gn-args serialization, guarded git
  checkout, debug-symbol setup) is translated definition by definition.
* Parts of `clusterfuzz/common.py` and `daemon/main.py` whose sources are not
  available in this tree (only their tests and the specification are) are
  modelled from the specification; their doc comments say so explicitly.

Python (2) strings are embedded as `List Char` (`PyStr`); Python dicts of
strings as association lists with distinct keys.  Python `str.strip`,
`str.split(sep)` and `str.splitlines` are reimplemented faithfully below.
-/

namespace ClusterFuzz

/-- Embedding of a Python 2 `str` as a list of characters. -/
abbrev PyStr := List Char

/-- Python 2 `str.isspace` on a single character: the whitespace set used by
`str.strip()` is space, tab, newline, carriage return, vertical tab and
form feed. -/
def isPySpace (c : Char) : Bool :=
  c = ' ' || c = '\t' || c = '\n' || c = '\r' ||
  c = Char.ofNat 11 || c = Char.ofNat 12

/-- Python `str.lstrip()` (no argument): drop leading whitespace. -/
def pyLstrip (s : PyStr) : PyStr := s.dropWhile isPySpace

/-- Python `str.rstrip()` (no argument): drop trailing whitespace. -/
def pyRstrip (s : PyStr) : PyStr := (s.reverse.dropWhile isPySpace).reverse

/-- Python `str.strip()` (no argument). -/
def pyStrip (s : PyStr) : PyStr := pyRstrip (pyLstrip s)

/-- Python `str.split(sep)` for a single-character separator `sep`:
splits on every occurrence, keeping empty fields. -/
def pySplitOn (sep : Char) : PyStr → List PyStr
  | [] => [[]]
  | c :: rest =>
    if c = sep then [] :: pySplitOn sep rest
    else
      match pySplitOn sep rest with
      | [] => [[c]]
      | fld :: flds => (c :: fld) :: flds

/-- Worker for `pySplitlines`: `acc` holds the current (reversed) line.
Recognizes the Python 2 `str.splitlines()` line boundaries newline,
carriage return, and carriage return followed by newline, and produces no
trailing empty line for a trailing line boundary. -/
def pySplitlinesAux : PyStr → PyStr → List PyStr
  | [], acc => [acc.reverse]
  | c :: rest, acc =>
    if c = '\n' then
      acc.reverse :: (if rest.isEmpty then [] else pySplitlinesAux rest [])
    else if c = '\r' then
      let rest2 := if rest.head? = some '\n' then rest.tail else rest
      acc.reverse :: (if rest2.isEmpty then [] else pySplitlinesAux rest2 [])
    else pySplitlinesAux rest (c :: acc)
termination_by s _ => s.length
decreasing_by
  all_goals simp_wf
  all_goals split
  all_goals simp [List.length_tail]
  all_goals omega

/-- Python 2 `str.splitlines()` (without keepends). -/
def pySplitlines (s : PyStr) : List PyStr :=
  if s.isEmpty then [] else pySplitlinesAux s []

/-- A gn-args dict: association list of key/value strings.  Mirrors the
Python dict built by `deserialize_gn_args`; keys are unique. -/
abbrev GnArgs := List (PyStr × PyStr)

/-- Python dict assignment `d[k] = v`: overwrite the value if the key is
present, otherwise add the binding. -/
def dictSet (d : GnArgs) (k v : PyStr) : GnArgs :=
  if (d.lookup k).isSome then
    d.map (fun p => if p.1 = k then (k, v) else p)
  else
    d ++ [(k, v)]

/-- Python dict lookup `d.get(k)`. -/
def dictGet (d : GnArgs) (k : PyStr) : Option PyStr := d.lookup k

/-- Parses the lines of a gn-args file, threading the accumulated dict.
A line that does not split on `=` into exactly two fields raises a
`ValueError` in Python (`key, val = line.split('=')`), embedded as `none`. -/
def parseGnLines : List PyStr → GnArgs → Option GnArgs
  | [], acc => some acc
  | l :: ls, acc =>
    match pySplitOn '=' l with
    | [k, v] => parseGnLines ls (dictSet acc (pyStrip k) (pyStrip v))
    | _ => none

/-- `binary_providers.deserialize_gn_args`: deserialize the raw string of
gn args into a dict.  The empty string gives the empty dict; otherwise each
line is split on `=` and both sides are stripped. -/
def deserialize_gn_args (args : PyStr) : Option GnArgs :=
  if args.isEmpty then some []
  else parseGnLines (pySplitlines args) []

/-- Strict byte-wise lexicographic comparison of Python 2 strings, as used
by `sorted`. -/
def pyStrLt : PyStr → PyStr → Bool
  | [], [] => false
  | [], _ :: _ => true
  | _ :: _, [] => false
  | a :: as, b :: bs =>
    if a < b then true
    else if b < a then false
    else pyStrLt as bs

/-- The comparison `sorted(args_hash.iteritems())` sorts key/value pairs;
since dict keys are unique this is a sort by key. -/
def gnPairLe (a b : PyStr × PyStr) : Prop := pyStrLt b.1 a.1 = false

instance : DecidableRel gnPairLe := fun a b => by
  unfold gnPairLe; infer_instance

/-- One serialized gn-args line, `'%s = %s' % (key, val)`. -/
def gnLine (k v : PyStr) : PyStr := (k ++ [' ']) ++ '=' :: (' ' :: v)

/-- Python `'\n'.flatten(args)`. -/
def joinLines : List PyStr → PyStr
  | [] => []
  | [l] => l
  | l :: ls => l ++ '\n' :: joinLines ls

/-- `binary_providers.serialize_gn_args`: serialize the gn args dict to a
raw string, sorted by key, one `key = value` per line. -/
def serialize_gn_args (d : GnArgs) : PyStr :=
  joinLines ((List.insertionSort gnPairLe d).map (fun p => gnLine p.1 p.2))

/-- A well-formed gn-args component: contains no `=` and no line-breaking
character, and is invariant under `strip()`. -/
def CleanStr (s : PyStr) : Prop :=
  '=' ∉ s ∧ '\n' ∉ s ∧ '\r' ∉ s ∧ pyStrip s = s

lemma len_dropWhile_le (p : Char → Bool) (l : PyStr) :
    (l.dropWhile p).length ≤ l.length := by
  induction l with
  | nil => simp
  | cons c l ih =>
    rw [List.dropWhile_cons]
    by_cases h : p c = true
    · simp only [h, if_true]
      exact Nat.le_succ_of_le ih
    · simp [h]

lemma dropWhile_eq_self_of_length {p : Char → Bool} {l : PyStr}
    (h : (l.dropWhile p).length = l.length) : l.dropWhile p = l := by
  cases l with
  | nil => rfl
  | cons c l =>
    rw [List.dropWhile_cons] at h ⊢
    by_cases hc : p c = true
    · simp only [hc, if_true] at h
      have := len_dropWhile_le p l
      simp at h
      omega
    · simp [hc]

lemma rstrip_length_le (s : PyStr) : (pyRstrip s).length ≤ s.length := by
  unfold pyRstrip
  simpa using len_dropWhile_le isPySpace s.reverse

lemma lstrip_length_le (s : PyStr) : (pyLstrip s).length ≤ s.length :=
  len_dropWhile_le isPySpace s

lemma lstrip_of_strip {s : PyStr} (h : pyStrip s = s) : pyLstrip s = s := by
  have h1 : (pyStrip s).length ≤ (pyLstrip s).length := rstrip_length_le _
  have h2 : (pyLstrip s).length ≤ s.length := lstrip_length_le s
  rw [h] at h1
  exact dropWhile_eq_self_of_length (Nat.le_antisymm h2 h1)

lemma rstrip_of_strip {s : PyStr} (h : pyStrip s = s) : pyRstrip s = s := by
  have := lstrip_of_strip h
  unfold pyStrip at h
  rwa [this] at h

lemma rstrip_rev_dropWhile {s : PyStr} (h : pyRstrip s = s) :
    s.reverse.dropWhile isPySpace = s.reverse := by
  unfold pyRstrip at h
  have := congrArg List.reverse h
  rwa [List.reverse_reverse] at this

lemma strip_append_space {k : PyStr} (h : pyStrip k = k) :
    pyStrip (k ++ [' ']) = k := by
  cases k with
  | nil => decide
  | cons c k =>
    have hl : pyLstrip (c :: k) = c :: k := lstrip_of_strip h
    have hc : isPySpace c = false := by
      by_contra hcc
      rw [Bool.not_eq_false] at hcc
      unfold pyLstrip at hl
      rw [List.dropWhile_cons, hcc, if_pos rfl] at hl
      have := len_dropWhile_le isPySpace k
      have h2 := congrArg List.length hl
      simp at h2
      omega
    have hr : pyRstrip (c :: k) = c :: k := rstrip_of_strip h
    unfold pyStrip pyLstrip
    rw [List.cons_append, List.dropWhile_cons]
    rw [hc]
    simp only [Bool.false_eq_true, if_false]
    unfold pyRstrip
    rw [show (c :: (k ++ [' '])).reverse = ' ' :: (c :: k).reverse by simp]
    rw [List.dropWhile_cons]
    rw [show isPySpace ' ' = true from rfl, if_pos rfl,
      rstrip_rev_dropWhile hr, List.reverse_reverse]

lemma strip_cons_space {v : PyStr} (h : pyStrip v = v) :
    pyStrip (' ' :: v) = v := by
  unfold pyStrip pyLstrip
  rw [List.dropWhile_cons, show isPySpace ' ' = true from rfl, if_pos rfl]
  have hl := lstrip_of_strip h
  unfold pyLstrip at hl
  rw [hl]
  exact rstrip_of_strip h

lemma pySplitOn_no_sep {sep : Char} {s : PyStr} (h : sep ∉ s) :
    pySplitOn sep s = [s] := by
  induction s with
  | nil => rfl
  | cons c rest ih =>
    have hc : ¬c = sep := fun hh => h (hh ▸ List.mem_cons_self c rest)
    have hrest : sep ∉ rest := fun hh => h (List.mem_cons_of_mem c hh)
    simp only [pySplitOn]
    rw [if_neg hc, ih hrest]

lemma pySplitOn_two {sep : Char} {a b : PyStr} (ha : sep ∉ a) (hb : sep ∉ b) :
    pySplitOn sep (a ++ sep :: b) = [a, b] := by
  induction a with
  | nil =>
    rw [List.nil_append]
    simp only [pySplitOn]
    simp [pySplitOn_no_sep hb]
  | cons c a ih =>
    have hc : ¬c = sep := fun hh => ha (hh ▸ List.mem_cons_self c a)
    have ha2 : sep ∉ a := fun hh => ha (List.mem_cons_of_mem c hh)
    rw [List.cons_append]
    simp only [pySplitOn]
    rw [if_neg hc, ih ha2]

/-- A line with no line-breaking characters. -/
def NoNL (s : PyStr) : Prop := '\n' ∉ s ∧ '\r' ∉ s

instance (s : PyStr) : Decidable (NoNL s) := by
  unfold NoNL; infer_instance

lemma pySplitlinesAux_no_nl {l : PyStr} (h : NoNL l) :
    ∀ acc, pySplitlinesAux l acc = [acc.reverse ++ l] := by
  induction l with
  | nil => intro acc; simp [pySplitlinesAux]
  | cons c l ih =>
    intro acc
    have hc1 : ¬c = '\n' := fun hh => h.1 (hh ▸ List.mem_cons_self c l)
    have hc2 : ¬c = '\r' := fun hh => h.2 (hh ▸ List.mem_cons_self c l)
    have hl : NoNL l :=
      ⟨fun hh => h.1 (List.mem_cons_of_mem c hh),
       fun hh => h.2 (List.mem_cons_of_mem c hh)⟩
    simp only [pySplitlinesAux]
    rw [if_neg hc1, if_neg hc2, ih hl]
    simp

lemma pySplitlinesAux_line {l rest : PyStr} (h : NoNL l) (acc : PyStr) :
    pySplitlinesAux (l ++ '\n' :: rest) acc =
      (acc.reverse ++ l) ::
        (if rest.isEmpty then [] else pySplitlinesAux rest []) := by
  induction l generalizing acc with
  | nil =>
    rw [List.nil_append]
    simp only [pySplitlinesAux]
    simp
  | cons c l ih =>
    have hc1 : ¬c = '\n' := fun hh => h.1 (hh ▸ List.mem_cons_self c l)
    have hc2 : ¬c = '\r' := fun hh => h.2 (hh ▸ List.mem_cons_self c l)
    have hl : NoNL l :=
      ⟨fun hh => h.1 (List.mem_cons_of_mem c hh),
       fun hh => h.2 (List.mem_cons_of_mem c hh)⟩
    rw [List.cons_append]
    simp only [pySplitlinesAux]
    rw [if_neg hc1, if_neg hc2, ih hl]
    simp

lemma joinLines_ne_nil {ls : List PyStr} (h : ls ≠ [])
    (h2 : ∀ l ∈ ls, l ≠ []) : joinLines ls ≠ [] := by
  match ls with
  | [] => exact absurd rfl h
  | [l] => exact h2 l (List.mem_singleton_self l)
  | l :: l2 :: t =>
    show l ++ '\n' :: joinLines (l2 :: t) ≠ []
    simp

lemma pySplitlines_joinLines {ls : List PyStr} (h : ls ≠ [])
    (hne : ∀ l ∈ ls, l ≠ []) (hnl : ∀ l ∈ ls, NoNL l) :
    pySplitlines (joinLines ls) = ls := by
  induction ls with
  | nil => exact absurd rfl h
  | cons l t ih =>
    cases t with
    | nil =>
      have hl : l ≠ [] := hne l (List.mem_cons_self l [])
      show pySplitlines l = [l]
      unfold pySplitlines
      rw [if_neg (by simpa using hl)]
      simpa using pySplitlinesAux_no_nl (hnl l (List.mem_cons_self l [])) []
    | cons l2 t2 =>
      show pySplitlines (l ++ '\n' :: joinLines (l2 :: t2)) = l :: l2 :: t2
      have hjoin : joinLines (l2 :: t2) ≠ [] :=
        joinLines_ne_nil (by simp)
          (fun x hx => hne x (List.mem_cons_of_mem l hx))
      unfold pySplitlines
      rw [if_neg (by simp)]
      rw [pySplitlinesAux_line (hnl l (List.mem_cons_self l _)) []]
      rw [if_neg (by simpa using hjoin)]
      have ihr := ih (by simp)
        (fun x hx => hne x (List.mem_cons_of_mem l hx))
        (fun x hx => hnl x (List.mem_cons_of_mem l hx))
      unfold pySplitlines at ihr
      rw [if_neg (by simpa using hjoin)] at ihr
      rw [ihr]
      simp

lemma lookup_append_of_none {a : GnArgs} {k : PyStr} (b : GnArgs)
    (h : a.lookup k = none) : (a ++ b).lookup k = b.lookup k := by
  induction a with
  | nil => rfl
  | cons p a ih =>
    rw [List.cons_append]
    by_cases hk : (k == p.1) = true
    · simp [List.lookup, hk] at h
    · rw [Bool.not_eq_true] at hk
      simp only [List.lookup, hk] at h ⊢
      exact ih h

lemma dictSet_fresh {d : GnArgs} {k : PyStr} (v : PyStr)
    (h : d.lookup k = none) : dictSet d k v = d ++ [(k, v)] := by
  unfold dictSet
  rw [h]
  rfl

lemma parseGnLines_map {m : GnArgs} :
    ∀ acc : GnArgs,
    (∀ p ∈ m, CleanStr p.1 ∧ CleanStr p.2) →
    (∀ p ∈ m, acc.lookup p.1 = none) →
    (m.map (fun p => p.1)).Nodup →
    parseGnLines (m.map (fun p => gnLine p.1 p.2)) acc = some (acc ++ m) := by
  induction m with
  | nil => intro acc _ _ _; simp [parseGnLines]
  | cons p m ih =>
    intro acc hclean hfresh hnodup
    obtain ⟨k, v⟩ := p
    have hck : CleanStr k := (hclean (k, v) (List.mem_cons_self _ _)).1
    have hcv : CleanStr v := (hclean (k, v) (List.mem_cons_self _ _)).2
    have h1 : '=' ∉ k ++ [' '] := by
      intro hm
      rcases List.mem_append.mp hm with hm | hm
      · exact hck.1 hm
      · simp at hm
    have h2 : '=' ∉ ' ' :: v := by
      intro hm
      rcases List.mem_cons.mp hm with hm | hm
      · exact absurd hm (by decide)
      · exact hcv.1 hm
    have hsplit : pySplitOn '=' (gnLine k v) = [k ++ [' '], ' ' :: v] :=
      pySplitOn_two h1 h2
    rw [List.map_cons]
    simp only [parseGnLines]
    rw [hsplit]
    dsimp only
    rw [strip_append_space hck.2.2.2, strip_cons_space hcv.2.2.2]
    rw [dictSet_fresh v (hfresh (k, v) (List.mem_cons_self _ _))]
    have hnodup2 : (m.map (fun p => p.1)).Nodup := by
      rw [List.map_cons, List.nodup_cons] at hnodup
      exact hnodup.2
    have hknotin : k ∉ m.map (fun p => p.1) := by
      rw [List.map_cons, List.nodup_cons] at hnodup
      exact hnodup.1
    rw [ih (acc ++ [(k, v)])
      (fun q hq => hclean q (List.mem_cons_of_mem _ hq))
      (fun q hq => by
        rw [lookup_append_of_none [(k, v)]
          (hfresh q (List.mem_cons_of_mem _ hq))]
        have hne : (q.1 == k) = false := by
          rw [beq_eq_false_iff_ne]
          intro hqk
          exact hknotin (hqk ▸ List.mem_map_of_mem (fun p => p.1) hq)
        simp [List.lookup, hne])
      hnodup2]
    simp

lemma pyStrLt_irrefl (s : PyStr) : pyStrLt s s = false := by
  induction s with
  | nil => rfl
  | cons c s ih =>
    unfold pyStrLt
    simp [lt_irrefl, ih]

lemma pyStrLt_asymm {a b : PyStr} (h : pyStrLt a b = true) :
    pyStrLt b a = false := by
  induction a generalizing b with
  | nil =>
    cases b with
    | nil => exact absurd h (by simp [pyStrLt])
    | cons c bs => rfl
  | cons c as ih =>
    cases b with
    | nil => exact absurd h (by simp [pyStrLt])
    | cons d bs =>
      unfold pyStrLt at h ⊢
      by_cases h1 : c < d
      · have h2 : ¬d < c := lt_asymm h1
        simp [h1, h2]
      · by_cases h2 : d < c
        · simp [h1, h2] at h
        · simp only [h1, h2, if_false] at h ⊢
          exact ih h

lemma pyStrLt_ne {a b : PyStr} (h : pyStrLt a b = true) : a ≠ b := by
  intro hab
  rw [hab, pyStrLt_irrefl] at h
  exact Bool.false_ne_true h

/-- The strict key order of a canonically represented gn-args dict. -/
def gnKeyLt (a b : PyStr × PyStr) : Prop := pyStrLt a.1 b.1 = true

instance : DecidableRel gnKeyLt := fun a b => by
  unfold gnKeyLt; infer_instance

instance (s : PyStr) : Decidable (CleanStr s) := by
  unfold CleanStr; infer_instance

/-- Every character of a serialized line comes from the key, the value, or
the padded `=` separator. -/
lemma mem_gnLine {c : Char} {k v : PyStr} (h : c ∈ gnLine k v) :
    c ∈ k ∨ c = ' ' ∨ c = '=' ∨ c ∈ v := by
  unfold gnLine at h
  rcases List.mem_append.mp h with h | h
  · rcases List.mem_append.mp h with h | h
    · exact Or.inl h
    · exact Or.inr (Or.inl (List.mem_singleton.mp h))
  · rcases List.mem_cons.mp h with h | h
    · exact Or.inr (Or.inr (Or.inl h))
    · rcases List.mem_cons.mp h with h | h
      · exact Or.inr (Or.inl h)
      · exact Or.inr (Or.inr (Or.inr h))

/-- C1 (amended).  The round-trip `deserialize (serialize m) = m` holds for
every gn-args dict (canonically represented as an association list strictly
sorted by key) whose keys and values contain no `=` character, contain no
newline or carriage-return character, and carry no leading or trailing
whitespace. -/
theorem gn_args_round_trip (m : GnArgs)
    (hsort : List.Sorted gnKeyLt m)
    (hclean : ∀ p ∈ m, CleanStr p.1 ∧ CleanStr p.2) :
    deserialize_gn_args (serialize_gn_args m) = some m := by
  have hsorted_le : List.Sorted gnPairLe m :=
    hsort.imp (fun h => pyStrLt_asymm h)
  have hsort_eq : List.insertionSort gnPairLe m = m :=
    hsorted_le.insertionSort_eq
  have hnodup : (m.map (fun p => p.1)).Nodup := by
    unfold List.Nodup
    rw [List.pairwise_map]
    exact hsort.imp (fun h => pyStrLt_ne h)
  unfold serialize_gn_args
  rw [hsort_eq]
  cases m with
  | nil => rfl
  | cons p m0 =>
    set mm := p :: m0 with hmm
    have hlines_ne : ∀ l ∈ mm.map (fun q => gnLine q.1 q.2), l ≠ [] := by
      intro l hl
      obtain ⟨q, _, rfl⟩ := List.mem_map.mp hl
      unfold gnLine
      simp
    have hlines_nl : ∀ l ∈ mm.map (fun q => gnLine q.1 q.2), NoNL l := by
      intro l hl
      obtain ⟨q, hq, rfl⟩ := List.mem_map.mp hl
      obtain ⟨hk, hv⟩ := hclean q hq
      constructor
      · intro hmem
        rcases mem_gnLine hmem with h1 | h1 | h1 | h1
        · exact hk.2.1 h1
        · exact absurd h1 (by decide)
        · exact absurd h1 (by decide)
        · exact hv.2.1 h1
      · intro hmem
        rcases mem_gnLine hmem with h1 | h1 | h1 | h1
        · exact hk.2.2.1 h1
        · exact absurd h1 (by decide)
        · exact absurd h1 (by decide)
        · exact hv.2.2.1 h1
    unfold deserialize_gn_args
    rw [if_neg (by
      simpa using joinLines_ne_nil (by simp) hlines_ne)]
    rw [pySplitlines_joinLines (by simp) hlines_ne hlines_nl]
    rw [parseGnLines_map [] hclean (fun q _ => rfl) hnodup]
    simp

/-- Concrete witness for the amended round-trip theorem. -/
theorem gn_args_round_trip_witness :
    deserialize_gn_args
        (serialize_gn_args [("a".data, "1".data), ("b".data, "2".data)]) =
      some [("a".data, "1".data), ("b".data, "2".data)] :=
  gn_args_round_trip _ (by decide) (by decide)

/-- Counterexample to C1 as stated: the mapping with the single entry
`k ↦ "a\nb"` contains no `=` in any key or value, yet it does not survive
the round trip: the serialized form reads `k = a` on one line and `b` on
the next, and deserializing raises a `ValueError` (the line `b` does not
split on `=` into a key and a value), embedded here as `none`. -/
theorem gn_args_round_trip_counterexample :
    (∀ p ∈ [(['k'], ['a', '\n', 'b'])],
        '=' ∉ p.1 ∧ '=' ∉ p.2) ∧
    deserialize_gn_args (serialize_gn_args [(['k'], ['a', '\n', 'b'])]) =
      none ∧
    deserialize_gn_args (serialize_gn_args [(['k'], ['a', '\n', 'b'])]) ≠
      some [(['k'], ['a', '\n', 'b'])] := by
  have hser : serialize_gn_args [(['k'], ['a', '\n', 'b'])] =
      ['k', ' ', '=', ' ', 'a', '\n', 'b'] := by decide
  have hsplit : pySplitlines ['k', ' ', '=', ' ', 'a', '\n', 'b'] =
      [['k', ' ', '=', ' ', 'a'], ['b']] := by
    unfold pySplitlines
    rw [if_neg (by decide)]
    have h1 := @pySplitlinesAux_line ['k', ' ', '=', ' ', 'a'] ['b']
      (by decide) []
    rw [show (['k', ' ', '=', ' ', 'a'] ++ '\n' :: ['b']) =
      ['k', ' ', '=', ' ', 'a', '\n', 'b'] from rfl] at h1
    rw [h1, if_neg (by decide),
      @pySplitlinesAux_no_nl ['b'] (by decide) []]
    simp
  have hmain : deserialize_gn_args
      (serialize_gn_args [(['k'], ['a', '\n', 'b'])]) = none := by
    rw [hser]
    unfold deserialize_gn_args
    rw [if_neg (by decide), hsplit]
    decide
  refine ⟨by decide, hmain, by rw [hmain]; simp⟩

lemma lookup_append_of_some {d : GnArgs} {q : PyStr} {x : PyStr}
    (e : GnArgs) (h : d.lookup q = some x) : (d ++ e).lookup q = some x := by
  induction d with
  | nil => simp [List.lookup] at h
  | cons p d ih =>
    obtain ⟨k1, v1⟩ := p
    rw [List.cons_append]
    by_cases hk : (q == k1) = true
    · simp only [List.lookup, hk] at h ⊢
      exact h
    · rw [Bool.not_eq_true] at hk
      simp only [List.lookup, hk] at h ⊢
      exact ih h

lemma lookup_map_set_same {d : GnArgs} {k : PyStr} (v : PyStr)
    (h : (d.lookup k).isSome) :
    (d.map (fun p => if p.1 = k then (k, v) else p)).lookup k = some v := by
  induction d with
  | nil => simp [List.lookup] at h
  | cons p d ih =>
    obtain ⟨k1, v1⟩ := p
    rw [List.map_cons]
    by_cases hp : k1 = k
    · rw [if_pos hp]
      simp [List.lookup]
    · rw [if_neg (by simpa using hp)]
      have hk : (k == k1) = false := by
        rw [beq_eq_false_iff_ne]
        exact fun hh => hp hh.symm
      simp only [List.lookup, hk] at h ⊢
      exact ih h

lemma lookup_map_set_other {d : GnArgs} {k q : PyStr} (v : PyStr)
    (h : q ≠ k) :
    (d.map (fun p => if p.1 = k then (k, v) else p)).lookup q =
      d.lookup q := by
  induction d with
  | nil => rfl
  | cons p d ih =>
    obtain ⟨k1, v1⟩ := p
    rw [List.map_cons]
    by_cases hp : k1 = k
    · rw [if_pos hp]
      have hq : (q == k) = false := beq_eq_false_iff_ne.mpr h
      have hq1 : (q == k1) = false := by
        rw [hp]; exact hq
      simp only [List.lookup, hq, hq1]
      exact ih
    · rw [if_neg (by simpa using hp)]
      by_cases hq : (q == k1) = true
      · simp only [List.lookup, hq]
      · rw [Bool.not_eq_true] at hq
        simp only [List.lookup, hq]
        exact ih

lemma dictGet_dictSet_same (d : GnArgs) (k v : PyStr) :
    dictGet (dictSet d k v) k = some v := by
  unfold dictGet dictSet
  by_cases h : (d.lookup k).isSome
  · rw [if_pos h]
    exact lookup_map_set_same v h
  · rw [if_neg h]
    rw [lookup_append_of_none [(k, v)] (Option.not_isSome_iff_eq_none.mp h)]
    simp [List.lookup]

lemma dictGet_dictSet_other (d : GnArgs) (k v q : PyStr)
    (h : q ≠ k) : dictGet (dictSet d k v) q = dictGet d q := by
  unfold dictGet dictSet
  by_cases hs : (d.lookup k).isSome
  · rw [if_pos hs]
    exact lookup_map_set_other v h
  · rw [if_neg hs]
    cases hq : d.lookup q with
    | none =>
      rw [lookup_append_of_none [(k, v)] hq]
      have : (q == k) = false := beq_eq_false_iff_ne.mpr h
      simp [List.lookup, this]
    | some x => exact lookup_append_of_some [(k, v)] hq

/-- `binary_providers.setup_debug_symbol_if_needed`: sets up debug symbols
when `enable_debug` is true.  See crbug.com/692620 in the source. -/
def setup_debug_symbol_if_needed (gn_args : GnArgs) (sanitizer : String)
    (enable_debug : Bool) : GnArgs :=
  if !enable_debug then gn_args
  else
    let g1 := dictSet gn_args "sanitizer_keep_symbols".data "true".data
    let g2 := dictSet g1 "symbol_level".data "2".data
    if sanitizer ≠ "MSAN" then dictSet g2 "is_debug".data "true".data
    else g2

/-- C7.  `setup_debug_symbol_if_needed` returns the gn-args unchanged when
the debug flag is off; with the debug flag on it sets
`sanitizer_keep_symbols` to `true` and `symbol_level` to `2` for every
sanitizer, and sets `is_debug` to `true` exactly when the sanitizer is not
`MSAN` (for `MSAN` the `is_debug` entry is left untouched). -/
theorem setup_debug_symbol_if_needed_spec (g : GnArgs) (sanitizer : String) :
    setup_debug_symbol_if_needed g sanitizer false = g ∧
    dictGet (setup_debug_symbol_if_needed g sanitizer true)
        "sanitizer_keep_symbols".data = some "true".data ∧
    dictGet (setup_debug_symbol_if_needed g sanitizer true)
        "symbol_level".data = some "2".data ∧
    (sanitizer ≠ "MSAN" →
      dictGet (setup_debug_symbol_if_needed g sanitizer true)
        "is_debug".data = some "true".data) ∧
    (sanitizer = "MSAN" →
      dictGet (setup_debug_symbol_if_needed g sanitizer true)
        "is_debug".data = dictGet g "is_debug".data) := by
  refine ⟨rfl, ?_, ?_, ?_, ?_⟩
  · unfold setup_debug_symbol_if_needed
    rw [if_neg (by decide)]
    by_cases hs : sanitizer ≠ "MSAN"
    · rw [if_pos hs]
      rw [dictGet_dictSet_other _ "is_debug".data "true".data
        "sanitizer_keep_symbols".data (by decide)]
      rw [dictGet_dictSet_other _ "symbol_level".data "2".data
        "sanitizer_keep_symbols".data (by decide)]
      rw [dictGet_dictSet_same]
    · rw [if_neg hs]
      rw [dictGet_dictSet_other _ "symbol_level".data "2".data
        "sanitizer_keep_symbols".data (by decide)]
      rw [dictGet_dictSet_same]
  · unfold setup_debug_symbol_if_needed
    rw [if_neg (by decide)]
    by_cases hs : sanitizer ≠ "MSAN"
    · rw [if_pos hs]
      rw [dictGet_dictSet_other _ "is_debug".data "true".data
        "symbol_level".data (by decide)]
      rw [dictGet_dictSet_same]
    · rw [if_neg hs]
      rw [dictGet_dictSet_same]
  · intro hs
    unfold setup_debug_symbol_if_needed
    rw [if_neg (by decide), if_pos hs, dictGet_dictSet_same]
  · intro hs
    unfold setup_debug_symbol_if_needed
    have hns : ¬sanitizer ≠ "MSAN" := fun hh => hh hs
    rw [if_neg (by decide), if_neg hns]
    rw [dictGet_dictSet_other _ "symbol_level".data "2".data
      "is_debug".data (by decide)]
    rw [dictGet_dictSet_other _ "sanitizer_keep_symbols".data "true".data
      "is_debug".data (by decide)]

/-- Concrete witness for the debug-symbol theorem, at a non-memory
sanitizer and at the memory sanitizer. -/
theorem setup_debug_symbol_if_needed_witness :
    dictGet (setup_debug_symbol_if_needed [] "ASAN" true)
        "is_debug".data = some "true".data ∧
    dictGet (setup_debug_symbol_if_needed [] "MSAN" true)
        "is_debug".data = dictGet [] "is_debug".data :=
  ⟨(setup_debug_symbol_if_needed_spec [] "ASAN").2.2.2.1 (by decide),
   (setup_debug_symbol_if_needed_spec [] "MSAN").2.2.2.2 rfl⟩

/-- Abstract repository/operator state consulted by `git_checkout`: the raw
output of `git rev-parse HEAD` (`get_current_sha` strips it), the output of
`git diff` (`is_repo_dirty` is truthiness of that output), whether the
target sha is locally present (`git cat-file -e` succeeding in
`sha_exists`), and the answer the confirmation would receive
(`common.check_confirm`; `True` without prompting in quiet mode). -/
structure GitEnv where
  headShaRaw : PyStr
  diffOutput : PyStr
  shaPresent : Bool
  userConfirms : Bool
deriving DecidableEq

/-- Result of a `git_checkout` run: normal return, `DirtyRepoError`, or
`UserRespondingNoError` from the declined confirmation. -/
inductive CheckoutOutcome
  | ok
  | dirtyRepo (dir : String)
  | userRespondingNo
deriving DecidableEq

/-- Trace of a `git_checkout` run: its outcome, every `(binary, args)` pair
passed to `common.execute`, in order, and the number of times the
confirmation was requested. -/
structure CheckoutTrace where
  outcome : CheckoutOutcome
  commands : List (String × String)
  confirmCalls : Nat
deriving DecidableEq

/-- `binary_providers.get_current_sha`: strip of `git rev-parse HEAD`. -/
def get_current_sha (env : GitEnv) : PyStr := pyStrip env.headShaRaw

/-- `binary_providers.is_repo_dirty`: true iff `git diff` printed output. -/
def is_repo_dirty (env : GitEnv) : Bool := !env.diffOutput.isEmpty

/-- Commands issued by `binary_providers.ensure_sha`: always `cat-file`,
plus `fetch origin` when the sha is not already present. -/
def ensure_sha_cmds (sha : String) (env : GitEnv) : List (String × String) :=
  ("git", "cat-file -e " ++ sha) ::
    (if env.shaPresent then [] else [("git", "fetch origin " ++ sha)])

/-- `binary_providers.git_checkout`: checks out the correct revision.
Returns immediately when HEAD already equals the target sha; otherwise asks
for confirmation, raises `DirtyRepoError` when the tree has uncommitted
changes, ensures the sha is fetchable and runs `git checkout <sha>`.  The
`revision` argument only feeds the log/prompt text and does not influence
the trace. -/
def git_checkout (sha : PyStr) (source_dir_path : String) (env : GitEnv) :
    CheckoutTrace :=
  if get_current_sha env = sha then
    { outcome := CheckoutOutcome.ok
      commands := [("git", "rev-parse HEAD")]
      confirmCalls := 0 }
  else if !env.userConfirms then
    { outcome := CheckoutOutcome.userRespondingNo
      commands := [("git", "rev-parse HEAD")]
      confirmCalls := 1 }
  else if is_repo_dirty env then
    { outcome := CheckoutOutcome.dirtyRepo source_dir_path
      commands := [("git", "rev-parse HEAD"), ("git", "diff")]
      confirmCalls := 1 }
  else
    { outcome := CheckoutOutcome.ok
      commands :=
        [("git", "rev-parse HEAD"), ("git", "diff")] ++
          ensure_sha_cmds (String.mk sha) env ++
          [("git", "checkout " ++ String.mk sha)]
      confirmCalls := 1 }

/-- A command that mutates the checkout: its argument string starts with
`checkout`. -/
def isCheckoutCmd (c : String × String) : Bool :=
  c.2.data.take 8 == "checkout".data

/-- C4.  In a guarded checkout: when the current HEAD sha equals the target
sha, no confirmation is requested and no checkout command is executed (the
only command run is the read-only `rev-parse`); when the shas differ and
the repository is dirty, no checkout command is executed either, and if the
confirmation is answered yes the run fails with `DirtyRepoError` for the
source directory. -/
theorem git_checkout_guarded (sha : PyStr) (source_dir_path : String)
    (env : GitEnv) :
    (pyStrip env.headShaRaw = sha →
      (git_checkout sha source_dir_path env).confirmCalls = 0 ∧
      (git_checkout sha source_dir_path env).commands =
        [("git", "rev-parse HEAD")] ∧
      ∀ c ∈ (git_checkout sha source_dir_path env).commands,
        isCheckoutCmd c = false) ∧
    (pyStrip env.headShaRaw ≠ sha → is_repo_dirty env = true →
      (∀ c ∈ (git_checkout sha source_dir_path env).commands,
        isCheckoutCmd c = false) ∧
      (env.userConfirms = true →
        (git_checkout sha source_dir_path env).outcome =
          CheckoutOutcome.dirtyRepo source_dir_path)) := by
  constructor
  · intro heq
    unfold git_checkout get_current_sha
    rw [if_pos heq]
    refine ⟨rfl, rfl, ?_⟩
    intro c hc
    rw [List.mem_singleton] at hc
    subst hc
    decide
  · intro hne hdirty
    unfold git_checkout get_current_sha
    rw [if_neg hne]
    by_cases hconf : env.userConfirms
    · rw [hconf]
      rw [if_neg (by decide), if_pos hdirty]
      refine ⟨?_, fun _ => rfl⟩
      intro c hc
      rcases List.mem_cons.mp hc with hc | hc
      · subst hc; decide
      · rw [List.mem_singleton] at hc
        subst hc
        decide
    · rw [Bool.not_eq_true] at hconf
      rw [hconf]
      rw [if_pos (by decide)]
      refine ⟨?_, ?_⟩
      · intro c hc
        rw [List.mem_singleton] at hc
        subst hc
        decide
      · intro hcontr
        exact absurd hcontr (by decide)

/-- Concrete witness for the guarded-checkout theorem: one state with HEAD
already on the target sha, one dirty state on a different sha. -/
theorem git_checkout_guarded_witness :
    ((git_checkout "abc".data "/src"
        ⟨"abc\n".data, [], true, true⟩).confirmCalls = 0 ∧
      (git_checkout "abc".data "/src"
        ⟨"abc\n".data, [], true, true⟩).commands =
        [("git", "rev-parse HEAD")] ∧
      ∀ c ∈ (git_checkout "abc".data "/src"
        ⟨"abc\n".data, [], true, true⟩).commands,
        isCheckoutCmd c = false) ∧
    ((∀ c ∈ (git_checkout "def".data "/src"
        ⟨"abc\n".data, "x".data, true, true⟩).commands,
        isCheckoutCmd c = false) ∧
      ((⟨"abc\n".data, "x".data, true, true⟩ : GitEnv).userConfirms = true →
        (git_checkout "def".data "/src"
          ⟨"abc\n".data, "x".data, true, true⟩).outcome =
          CheckoutOutcome.dirtyRepo "/src")) :=
  ⟨(git_checkout_guarded "abc".data "/src"
      ⟨"abc\n".data, [], true, true⟩).1 (by decide),
   (git_checkout_guarded "def".data "/src"
      ⟨"abc\n".data, "x".data, true, true⟩).2 (by decide) (by decide)⟩

/-- Modelled from the spec: `is_time_valid` lives in `daemon/main.py`,
which is not under `src/`.  Per the spec, an item's age, counted from
"now" at check time, must be at least `MIN_AGE` and at most `MAX_AGE`;
the values of the two constants are not in the available sources, so they
are parameters here. -/
def is_time_valid (minAge maxAge now timestamp : Int) : Bool :=
  decide (minAge ≤ now - timestamp) && decide (now - timestamp ≤ maxAge)

/-- C5.  `is_time_valid` accepts an age exactly when
`MIN_AGE ≤ age ≤ MAX_AGE`; the two boundary ages are valid and the ages
just outside the window (`MIN_AGE - 1`, `MAX_AGE + 1`) are invalid.  An
item of age `a` has timestamp `now - a`. -/
theorem is_time_valid_window (minAge maxAge : Int) (h : minAge ≤ maxAge) :
    (∀ now timestamp, is_time_valid minAge maxAge now timestamp = true ↔
      minAge ≤ now - timestamp ∧ now - timestamp ≤ maxAge) ∧
    (∀ now, is_time_valid minAge maxAge now (now - minAge) = true) ∧
    (∀ now, is_time_valid minAge maxAge now (now - maxAge) = true) ∧
    (∀ now, is_time_valid minAge maxAge now (now - (minAge - 1)) = false) ∧
    (∀ now, is_time_valid minAge maxAge now (now - (maxAge + 1)) = false) := by
  refine ⟨?_, ?_, ?_, ?_, ?_⟩
  · intro now timestamp
    unfold is_time_valid
    rw [Bool.and_eq_true, decide_eq_true_eq, decide_eq_true_eq]
  · intro now
    unfold is_time_valid
    rw [Bool.and_eq_true, decide_eq_true_eq, decide_eq_true_eq]
    omega
  · intro now
    unfold is_time_valid
    rw [Bool.and_eq_true, decide_eq_true_eq, decide_eq_true_eq]
    omega
  · intro now
    unfold is_time_valid
    have : ¬minAge ≤ now - (now - (minAge - 1)) := by omega
    simp [this]
  · intro now
    unfold is_time_valid
    have : ¬now - (now - (maxAge + 1)) ≤ maxAge := by omega
    simp [this]

/-- Concrete witness for the validity-window theorem, with
`MIN_AGE = 10`, `MAX_AGE = 20` and `now = 100`. -/
theorem is_time_valid_window_witness :
    is_time_valid 10 20 100 90 = true ∧
    is_time_valid 10 20 100 80 = true ∧
    is_time_valid 10 20 100 91 = false ∧
    is_time_valid 10 20 100 79 = false :=
  ⟨(is_time_valid_window 10 20 (by decide)).2.1 100,
   (is_time_valid_window 10 20 (by decide)).2.2.1 100,
   (is_time_valid_window 10 20 (by decide)).2.2.2.1 100,
   (is_time_valid_window 10 20 (by decide)).2.2.2.2 100⟩

/-- Modelled from the spec: `common.get_stored_auth_header` in
`clusterfuzz/common.py` is not under `src/`.  The auth token cache file
holds a single-line literal bearer token; reading it demands fixed
restrictive (owner-only) permissions, a group- or world-accessible mode is
a hard read-time failure (`PermissionsTooPermissiveError`), and a missing
file yields no header.  `mode` is the permission word; its low six bits
are the group and world bits. -/
structure AuthFile where
  mode : Nat
  content : String
deriving DecidableEq

/-- Outcome of reading the stored auth header. -/
inductive AuthReadResult
  | missing
  | permissionsTooPermissive
  | header (token : String)
deriving DecidableEq

/-- Modelled from the spec: read the stored auth header, failing hard on
group- or world-accessible permission bits. -/
def get_stored_auth_header (file : Option AuthFile) : AuthReadResult :=
  match file with
  | none => AuthReadResult.missing
  | some f =>
    if f.mode % 64 ≠ 0 then AuthReadResult.permissionsTooPermissive
    else AuthReadResult.header f.content

/-- C9.  Reading the token cache file fails with
`PermissionsTooPermissive` whenever any group/world permission bit is set,
and returns the stored bearer token when the mode is owner-only. -/
theorem get_stored_auth_header_spec (f : AuthFile) :
    (f.mode % 64 ≠ 0 →
      get_stored_auth_header (some f) =
        AuthReadResult.permissionsTooPermissive) ∧
    (f.mode % 64 = 0 →
      get_stored_auth_header (some f) = AuthReadResult.header f.content) := by
  constructor
  · intro h
    simp only [get_stored_auth_header]
    rw [if_pos h]
  · intro h
    simp only [get_stored_auth_header]
    rw [if_neg (fun hh => hh h)]

/-- Concrete witness: mode `0o020` (group-writable, as in the repository's
test) fails, mode `0o600` returns the stored token. -/
theorem get_stored_auth_header_witness :
    get_stored_auth_header (some ⟨16, "Bearer 1234"⟩) =
      AuthReadResult.permissionsTooPermissive ∧
    get_stored_auth_header (some ⟨384, "Bearer 1234"⟩) =
      AuthReadResult.header "Bearer 1234" :=
  ⟨(get_stored_auth_header_spec ⟨16, "Bearer 1234"⟩).1 (by decide),
   (get_stored_auth_header_spec ⟨384, "Bearer 1234"⟩).2 (by decide)⟩

/-- Signal kinds sent by the graduated kill. -/
inductive KSig
  | sigterm
  | sigkill
deriving DecidableEq

/-- Response of the process group to one `os.killpg` call. -/
inductive PgResponse
  | alive
  | noSuchProcess
  | otherError (errno : Nat)
deriving DecidableEq

/-- Outcome of `kill`. -/
inductive KillOutcome
  | returned
  | killProcessFailed (cmd : String) (pid : Nat)
  | osError (errno : Nat)
deriving DecidableEq

/-- Trace of a `kill` run: its outcome, the signals passed to `killpg` in
order, and the duration of each sleep performed. -/
structure KillTrace where
  outcome : KillOutcome
  signalsSent : List KSig
  sleepSeconds : List Nat
deriving DecidableEq

/-- The fixed grace period slept between kill attempts, in seconds. -/
def KILL_GRACE_SECONDS : Nat := 3

/-- Modelled from the spec (`common.kill` in `clusterfuzz/common.py` is not
under `src/`): the graduated kill sends two terminate signals and then
forced-kill signals up to a fixed retry ceiling of two (the counts the
repository's `KillTest` pins down). -/
def killSignalPlan : List KSig :=
  [KSig.sigterm, KSig.sigterm, KSig.sigkill, KSig.sigkill]

/-- Modelled from the spec: one `killpg` attempt per signal of the plan,
indexed by `i`; a no-such-process error means the group died and `kill`
returns, any other OS error is re-raised, and a still-alive group causes a
grace-period sleep before the next attempt.  An exhausted plan fails with
`KillProcessFailedError` naming the command and pid. -/
def killLoop (cmd : String) (pid : Nat) (resp : Nat → PgResponse) :
    List KSig → Nat → List KSig → List Nat → KillTrace
  | [], _, sent, sleeps =>
    ⟨KillOutcome.killProcessFailed cmd pid, sent, sleeps⟩
  | s :: plan, i, sent, sleeps =>
    match resp i with
    | PgResponse.noSuchProcess => ⟨KillOutcome.returned, sent ++ [s], sleeps⟩
    | PgResponse.otherError e => ⟨KillOutcome.osError e, sent ++ [s], sleeps⟩
    | PgResponse.alive =>
      killLoop cmd pid resp plan (i + 1) (sent ++ [s])
        (sleeps ++ [KILL_GRACE_SECONDS])

/-- Modelled from the spec: `common.kill` over an abstract process-group
response. -/
def kill (cmd : String) (pid : Nat) (resp : Nat → PgResponse) : KillTrace :=
  killLoop cmd pid resp killSignalPlan 0 [] []

/-- C3.  Against a process group that never dies, `kill` sends exactly two
terminate signals followed by two forced-kill signals, sleeps the fixed
3-second grace period after each, and fails with `KillProcessFailed`
naming the command and pid.  If the group is gone (the no-such-process OS
error) at any attempt, `kill` returns without raising; any other OS error
is re-raised. -/
theorem kill_escalation (cmd : String) (pid : Nat)
    (resp : Nat → PgResponse) :
    ((∀ i, resp i = PgResponse.alive) →
      kill cmd pid resp =
        ⟨KillOutcome.killProcessFailed cmd pid,
         [KSig.sigterm, KSig.sigterm, KSig.sigkill, KSig.sigkill],
         [3, 3, 3, 3]⟩) ∧
    (∀ k, k < 4 → (∀ i, i < k → resp i = PgResponse.alive) →
      resp k = PgResponse.noSuchProcess →
      (kill cmd pid resp).outcome = KillOutcome.returned) ∧
    (∀ k e, k < 4 → (∀ i, i < k → resp i = PgResponse.alive) →
      resp k = PgResponse.otherError e →
      (kill cmd pid resp).outcome = KillOutcome.osError e) := by
  refine ⟨?_, ?_, ?_⟩
  · intro h
    simp [kill, killLoop, killSignalPlan, KILL_GRACE_SECONDS,
      h 0, h 1, h 2, h 3]
  · intro k hk hbefore hstop
    interval_cases k
    · simp [kill, killLoop, killSignalPlan, hstop]
    · simp [kill, killLoop, killSignalPlan,
        hbefore 0 (by omega), hstop]
    · simp [kill, killLoop, killSignalPlan,
        hbefore 0 (by omega), hbefore 1 (by omega), hstop]
    · simp [kill, killLoop, killSignalPlan, hbefore 0 (by omega),
        hbefore 1 (by omega), hbefore 2 (by omega), hstop]
  · intro k e hk hbefore hstop
    interval_cases k
    · simp [kill, killLoop, killSignalPlan, hstop]
    · simp [kill, killLoop, killSignalPlan,
        hbefore 0 (by omega), hstop]
    · simp [kill, killLoop, killSignalPlan,
        hbefore 0 (by omega), hbefore 1 (by omega), hstop]
    · simp [kill, killLoop, killSignalPlan, hbefore 0 (by omega),
        hbefore 1 (by omega), hbefore 2 (by omega), hstop]

/-- A process group that never dies. -/
def killRespAlive : Nat → PgResponse := fun _ => PgResponse.alive

/-- A process group that disappears at the third attempt. -/
def killRespDiesAt2 : Nat → PgResponse := fun i =>
  if i < 2 then PgResponse.alive else PgResponse.noSuchProcess

/-- A process group whose second `killpg` raises an unrelated OS error. -/
def killRespErrAt1 : Nat → PgResponse := fun i =>
  if i < 1 then PgResponse.alive else PgResponse.otherError 4

/-- Concrete witness for the kill-escalation theorem. -/
theorem kill_escalation_witness :
    kill "cmd" 1234 killRespAlive =
      ⟨KillOutcome.killProcessFailed "cmd" 1234,
       [KSig.sigterm, KSig.sigterm, KSig.sigkill, KSig.sigkill],
       [3, 3, 3, 3]⟩ ∧
    (kill "cmd" 1234 killRespDiesAt2).outcome = KillOutcome.returned ∧
    (kill "cmd" 1234 killRespErrAt1).outcome = KillOutcome.osError 4 :=
  ⟨(kill_escalation "cmd" 1234 killRespAlive).1 (fun i => rfl),
   (kill_escalation "cmd" 1234 killRespDiesAt2).2.1 2 (by decide)
     (fun i hi => by simp [killRespDiesAt2, hi]) (by decide),
   (kill_escalation "cmd" 1234 killRespErrAt1).2.2 1 4 (by decide)
     (fun i hi => by simp [killRespErrAt1, hi]) (by decide)⟩

/-- A memo cache paired with the state the memoized body may read and
update.  `κ` is the cache key — the owning instance's identity together
with the call arguments — `ν` the result type and `σ` the body's state. -/
structure MemoState (κ ν σ : Type) where
  cache : List (κ × ν)
  inner : σ

/-- First-match lookup in the memo cache. -/
def memoLookup {κ ν : Type} [DecidableEq κ] :
    List (κ × ν) → κ → Option ν
  | [], _ => none
  | (k1, v) :: rest, k => if k1 = k then some v else memoLookup rest k

/-- Modelled from the spec: `common.memoize` (in `clusterfuzz/common.py`,
not under `src/`) caches a function's result per (instance, arguments)
key; the design notes describe it as an explicit cache keyed by the owning
instance plus the call arguments.  A call whose key is cached returns the
cached value without running the body (third component `false`); otherwise
the body runs once and the result is cached. -/
def memoCall {κ ν σ : Type} [DecidableEq κ] (body : σ → κ → ν × σ)
    (st : MemoState κ ν σ) (k : κ) : ν × MemoState κ ν σ × Bool :=
  match memoLookup st.cache k with
  | some v => (v, st, false)
  | none =>
    let r := body st.inner k
    (r.1, ⟨st.cache ++ [(k, r.1)], r.2⟩, true)

/-- Runs a sequence of memoized calls, returning one record per call —
its key, the value returned, and whether the body executed — along with
the final state. -/
def memoRun {κ ν σ : Type} [DecidableEq κ] (body : σ → κ → ν × σ) :
    MemoState κ ν σ → List κ → List (κ × ν × Bool) × MemoState κ ν σ
  | st, [] => ([], st)
  | st, k :: ks =>
    let r := memoCall body st k
    let rest := memoRun body r.2.1 ks
    ((k, r.1, r.2.2) :: rest.1, rest.2)

lemma memoLookup_append_left {κ ν : Type} [DecidableEq κ]
    {c : List (κ × ν)} {k : κ} {v : ν} (e : List (κ × ν))
    (h : memoLookup c k = some v) : memoLookup (c ++ e) k = some v := by
  induction c with
  | nil => simp [memoLookup] at h
  | cons p c ih =>
    obtain ⟨k1, v1⟩ := p
    rw [List.cons_append]
    by_cases hk : k1 = k
    · simp only [memoLookup, hk, if_pos rfl] at h ⊢
      simpa using h
    · simp only [memoLookup, hk, if_false] at h ⊢
      exact ih h

lemma memoLookup_append_none {κ ν : Type} [DecidableEq κ]
    {c : List (κ × ν)} {k q : κ} (v : ν) (h : memoLookup c k = none)
    (hq : q ≠ k) : memoLookup (c ++ [(q, v)]) k = none := by
  induction c with
  | nil => simp [memoLookup, hq]
  | cons p c ih =>
    obtain ⟨k1, v1⟩ := p
    rw [List.cons_append]
    by_cases hk : k1 = k
    · simp only [memoLookup, hk, if_pos rfl] at h
      exact absurd h (by simp)
    · simp only [memoLookup, hk, if_false] at h ⊢
      exact ih h

/-- Appending a fresh binding makes its key found with its value. -/
lemma memoLookup_append_self {κ ν : Type} [DecidableEq κ]
    {c : List (κ × ν)} {k : κ} (h : memoLookup c k = none) (v : ν) :
    memoLookup (c ++ [(k, v)]) k = some v := by
  induction c with
  | nil => simp [memoLookup]
  | cons p c ih =>
    obtain ⟨k1, v1⟩ := p
    by_cases hk : k1 = k
    · simp [memoLookup, hk] at h
    · rw [List.cons_append]
      simp only [memoLookup, hk, if_false] at h ⊢
      exact ih h

/-- After a memoized call, the key just used is cached with the value just
returned. -/
lemma memoCall_lookup_self {κ ν σ : Type} [DecidableEq κ]
    (body : σ → κ → ν × σ) (st : MemoState κ ν σ) (k : κ) :
    memoLookup (memoCall body st k).2.1.cache k =
      some (memoCall body st k).1 := by
  unfold memoCall
  cases h : memoLookup st.cache k with
  | some v => exact h
  | none =>
    simp only []
    exact memoLookup_append_self h _

/-- A cached key stays cached across a call, with the same value. -/
lemma memoCall_preserves {κ ν σ : Type} [DecidableEq κ]
    (body : σ → κ → ν × σ) (st : MemoState κ ν σ) (q : κ) {k : κ} {v : ν}
    (h : memoLookup st.cache k = some v) :
    memoLookup (memoCall body st q).2.1.cache k = some v := by
  unfold memoCall
  cases hq : memoLookup st.cache q with
  | some w => exact h
  | none =>
    simp only []
    exact memoLookup_append_left _ h

/-- Records of a run from a state whose cache already holds `k ↦ v`:
every call with key `k` returns `v` without executing the body. -/
lemma memoRun_cached {κ ν σ : Type} [DecidableEq κ]
    (body : σ → κ → ν × σ) (ks : List κ) :
    ∀ (st : MemoState κ ν σ) (k : κ) (v : ν),
      memoLookup st.cache k = some v →
      ∀ rec ∈ (memoRun body st ks).1, rec.1 = k →
        rec.2.1 = v ∧ rec.2.2 = false := by
  induction ks with
  | nil => intro st k v h rec hrec; simp [memoRun] at hrec
  | cons q ks ih =>
    intro st k v h rec hrec hkey
    simp only [memoRun, List.mem_cons] at hrec
    rcases hrec with hrec | hrec
    · subst hrec
      simp only at hkey
      subst hkey
      unfold memoCall
      rw [h]
      exact ⟨rfl, rfl⟩
    · exact ih _ k v (memoCall_preserves body st q h) rec hrec hkey

/-- Any two records of one memoized run that share a key carry the same
value. -/
lemma memoRun_consistent {κ ν σ : Type} [DecidableEq κ]
    (body : σ → κ → ν × σ) (ks : List κ) :
    ∀ st : MemoState κ ν σ,
      ∀ r1 ∈ (memoRun body st ks).1, ∀ r2 ∈ (memoRun body st ks).1,
        r1.1 = r2.1 → r1.2.1 = r2.2.1 := by
  induction ks with
  | nil => intro st r1 h1; simp [memoRun] at h1
  | cons q ks ih =>
    intro st r1 h1 r2 h2 hkey
    simp only [memoRun, List.mem_cons] at h1 h2
    have hcached := memoCall_lookup_self body st q
    rcases h1 with h1 | h1 <;> rcases h2 with h2 | h2
    · rw [h1, h2]
    · subst h1
      simp only at hkey
      have := memoRun_cached body ks _ q _ hcached r2 h2 hkey.symm
      simp [this.1]
    · subst h2
      simp only at hkey
      have := memoRun_cached body ks _ q _ hcached r1 h1 hkey
      simp [this.1]
    · exact ih _ r1 h1 r2 h2 hkey

/-- C10.  Over any sequence of memoized calls: a key not initially cached
executes its body exactly once if it is called at all (and zero times
otherwise), and any two calls with the same key return the same value —
repeated calls are served from the cache without re-executing the body,
while distinct keys (distinct instances or distinct arguments) are
computed and cached independently. -/
theorem memoize_spec {κ ν σ : Type} [DecidableEq κ]
    (body : σ → κ → ν × σ) (st : MemoState κ ν σ) (ks : List κ) (k : κ)
    (hfresh : memoLookup st.cache k = none) :
    ((memoRun body st ks).1.countP
        (fun rec => decide (rec.1 = k) && rec.2.2)) =
      (if k ∈ ks then 1 else 0) ∧
    (∀ r1 ∈ (memoRun body st ks).1, ∀ r2 ∈ (memoRun body st ks).1,
      r1.1 = r2.1 → r1.2.1 = r2.2.1) := by
  constructor
  · induction ks generalizing st with
    | nil => simp [memoRun]
    | cons q ks ih =>
      by_cases hq : q = k
      · subst hq
        simp only [memoRun, List.countP_cons]
        have hexec : (memoCall body st q).2.2 = true := by
          unfold memoCall
          rw [hfresh]
        have hcached : memoLookup (memoCall body st q).2.1.cache q =
            some (memoCall body st q).1 := memoCall_lookup_self body st q
        have hzero : ((memoRun body (memoCall body st q).2.1 ks).1.countP
            (fun rec => decide (rec.1 = q) && rec.2.2)) = 0 := by
          rw [List.countP_eq_zero]
          intro rec hrec
          rw [Bool.and_eq_true, decide_eq_true_eq]
          rintro ⟨hkey, hex⟩
          have := (memoRun_cached body ks _ q _ hcached rec hrec hkey).2
          rw [this] at hex
          exact Bool.false_ne_true hex
        rw [hzero]
        simp [hexec]
      · simp only [memoRun, List.countP_cons]
        have hstill : memoLookup (memoCall body st q).2.1.cache k = none := by
          unfold memoCall
          cases hlq : memoLookup st.cache q with
          | some w => simpa using hfresh
          | none =>
            simp only []
            exact memoLookup_append_none _ hfresh hq
        rw [ih _ hstill]
        have : (decide ((q, (memoCall body st q).1,
            (memoCall body st q).2.2).1 = k) &&
            ((q, (memoCall body st q).1,
              (memoCall body st q).2.2)).2.2) = false := by
          simp [hq]
        rw [this]
        have hkq : ¬k = q := fun hh => hq hh.symm
        simp [List.mem_cons, hkq]
  · exact memoRun_consistent body ks st

/-- A concrete memoized body whose value depends on how often it ran:
without the cache, repeated calls would return different values. -/
def memoCounterBody : Nat → Nat → Nat × Nat :=
  fun s k => (100 * s + k, s + 1)

/-- Concrete witness for the memoization theorem: the key 5 is called
twice and 7 once; 5 executes exactly once and both calls agree. -/
theorem memoize_spec_witness :
    ((memoRun memoCounterBody ⟨[], 0⟩ [5, 5, 7]).1.countP
        (fun rec => decide (rec.1 = 5) && rec.2.2)) = 1 ∧
    (∀ r1 ∈ (memoRun memoCounterBody
        (⟨[], 0⟩ : MemoState Nat Nat Nat) [5, 5, 7]).1,
      ∀ r2 ∈ (memoRun memoCounterBody
        (⟨[], 0⟩ : MemoState Nat Nat Nat) [5, 5, 7]).1,
      r1.1 = r2.1 → r1.2.1 = r2.2.1) :=
  ⟨by simpa using
      (memoize_spec memoCounterBody ⟨[], 0⟩ [5, 5, 7] 5 rfl).1,
   (memoize_spec memoCounterBody ⟨[], 0⟩ [5, 5, 7] 5 rfl).2⟩

/-- One item of a page returned by the remote testcase query. -/
structure RemoteItem where
  jobType : String
  id : Nat
  timestamp : Int
deriving DecidableEq

/-- Modelled from the spec: the per-item filter of
`daemon/main.load_new_testcases` (`daemon/main.py` is not under `src/`).
An item qualifies when its job type is in the supported set, its id has
not been processed yet (in this polling pass or earlier in the same daemon
run), and its filing time passes the validity check. -/
def item_qualifies (supported : List String) (tv : Int → Bool)
    (processed : List Nat) (it : RemoteItem) : Bool :=
  decide (it.jobType ∈ supported) && !(decide (it.id ∈ processed)) &&
    tv it.timestamp

/-- Modelled from the spec: process one page's items in order, yielding
each qualifying item's id and job type and marking the id processed. -/
def scan_page (supported : List String) (tv : Int → Bool) :
    List RemoteItem → List Nat → List (Nat × String) × List Nat
  | [], processed => ([], processed)
  | it :: rest, processed =>
    if item_qualifies supported tv processed it then
      let r := scan_page supported tv rest (processed ++ [it.id])
      ((it.id, it.jobType) :: r.1, r.2)
    else scan_page supported tv rest processed

/-- Modelled from the spec: `daemon/main.load_new_testcases` paginates the
remote query until the first empty page, processing each page's items in
order (the input list holds the successive pages the remote returns, an
exhausted list standing for an empty next page).  Returns the yielded
testcases in first-seen order, the final processed-id set, and the number
of pages queried. -/
def load_new_testcases (supported : List String) (tv : Int → Bool) :
    List (List RemoteItem) → List Nat →
      List (Nat × String) × List Nat × Nat
  | [], processed => ([], processed, 1)
  | page :: rest, processed =>
    if page.isEmpty then ([], processed, 1)
    else
      let r := scan_page supported tv page processed
      let rr := load_new_testcases supported tv rest r.2
      (r.1 ++ rr.1, rr.2.1, rr.2.2 + 1)

lemma item_qualifies_iff {supported : List String} {tv : Int → Bool}
    {processed : List Nat} {it : RemoteItem} :
    item_qualifies supported tv processed it = true ↔
      it.jobType ∈ supported ∧ it.id ∉ processed ∧
        tv it.timestamp = true := by
  unfold item_qualifies
  cases h3 : tv it.timestamp <;>
    simp [h3, and_assoc]

/-- The processed set only grows under `scan_page`, and every yielded id
lands in it. -/
lemma scan_page_processed {supported : List String} {tv : Int → Bool} :
    ∀ (items : List RemoteItem) (p : List Nat),
      (∀ x ∈ p, x ∈ (scan_page supported tv items p).2) ∧
      (∀ tc ∈ (scan_page supported tv items p).1,
        tc.1 ∈ (scan_page supported tv items p).2) := by
  intro items
  induction items with
  | nil => intro p; exact ⟨fun x hx => hx, fun tc htc => absurd htc (by simp [scan_page])⟩
  | cons it rest ih =>
    intro p
    by_cases hq : item_qualifies supported tv p it = true
    · constructor
      · intro x hx
        simp only [scan_page, hq, if_true]
        exact (ih (p ++ [it.id])).1 x (by simp [hx])
      · intro tc htc
        simp only [scan_page, hq, if_true] at htc ⊢
        rcases List.mem_cons.mp htc with htc | htc
        · subst htc
          exact (ih (p ++ [it.id])).1 it.id (by simp)
        · exact (ih (p ++ [it.id])).2 tc htc
    · constructor
      · intro x hx
        simp only [scan_page, hq, if_false]
        exact (ih p).1 x hx
      · intro tc htc
        simp only [scan_page, hq, if_false] at htc ⊢
        exact (ih p).2 tc htc

/-- Every testcase yielded by `scan_page` was not processed before, has a
supported job type, and stems from a time-valid item of the page. -/
lemma scan_page_props {supported : List String} {tv : Int → Bool} :
    ∀ (items : List RemoteItem) (p : List Nat),
      ∀ tc ∈ (scan_page supported tv items p).1,
        tc.1 ∉ p ∧ tc.2 ∈ supported ∧
        ∃ it ∈ items, it.id = tc.1 ∧ it.jobType = tc.2 ∧
          tv it.timestamp = true := by
  intro items
  induction items with
  | nil => intro p tc htc; simp [scan_page] at htc
  | cons it rest ih =>
    intro p tc htc
    by_cases hq : item_qualifies supported tv p it = true
    · simp only [scan_page, hq, if_true] at htc
      obtain ⟨hjob, hid, htime⟩ := item_qualifies_iff.mp hq
      rcases List.mem_cons.mp htc with htc | htc
      · subst htc
        exact ⟨hid, hjob, it, List.mem_cons_self it rest, rfl, rfl, htime⟩
      · obtain ⟨hnotin, hsup, w, hw, hrest⟩ := ih (p ++ [it.id]) tc htc
        refine ⟨fun hx => hnotin (by simp [hx]), hsup,
          w, List.mem_cons_of_mem it hw, hrest⟩
    · simp only [scan_page, hq, if_false] at htc
      obtain ⟨hnotin, hsup, w, hw, hrest⟩ := ih p tc htc
      exact ⟨hnotin, hsup, w, List.mem_cons_of_mem it hw, hrest⟩

/-- The ids yielded by one `scan_page` pass are pairwise distinct. -/
lemma scan_page_nodup {supported : List String} {tv : Int → Bool} :
    ∀ (items : List RemoteItem) (p : List Nat),
      ((scan_page supported tv items p).1.map
        (fun tc => tc.1)).Nodup := by
  intro items
  induction items with
  | nil => intro p; simp [scan_page]
  | cons it rest ih =>
    intro p
    by_cases hq : item_qualifies supported tv p it = true
    · simp only [scan_page, hq, if_true, List.map_cons, List.nodup_cons]
      refine ⟨?_, ih (p ++ [it.id])⟩
      intro hmem
      obtain ⟨tc, htc, hid⟩ := List.mem_map.mp hmem
      have := (scan_page_props rest (p ++ [it.id]) tc htc).1
      exact this (by simp [hid])
    · simp only [scan_page, hq, if_false]
      exact ih p

/-- `scan_page` over an appended item list runs the two halves in
sequence, threading the processed set. -/
lemma scan_page_append {supported : List String} {tv : Int → Bool} :
    ∀ (a b : List RemoteItem) (p : List Nat),
      scan_page supported tv (a ++ b) p =
        ((scan_page supported tv a p).1 ++
          (scan_page supported tv b (scan_page supported tv a p).2).1,
         (scan_page supported tv b (scan_page supported tv a p).2).2) := by
  intro a
  induction a with
  | nil => intro b p; simp [scan_page]
  | cons it rest ih =>
    intro b p
    by_cases hq : item_qualifies supported tv p it = true
    · rw [List.cons_append]
      simp only [scan_page, hq, if_true]
      rw [ih b (p ++ [it.id])]
      simp
    · rw [List.cons_append]
      simp only [scan_page, hq, if_false]
      exact ih b p

/-- Every testcase yielded by a polling run was not in the initial
processed set, has a supported job type, and stems from a time-valid item
of the returned pages. -/
lemma load_props {supported : List String} {tv : Int → Bool} :
    ∀ (pages : List (List RemoteItem)) (p0 : List Nat),
      ∀ tc ∈ (load_new_testcases supported tv pages p0).1,
        tc.1 ∉ p0 ∧ tc.2 ∈ supported ∧
        ∃ it ∈ pages.flatten, it.id = tc.1 ∧ it.jobType = tc.2 ∧
          tv it.timestamp = true := by
  intro pages
  induction pages with
  | nil => intro p0 tc htc; simp [load_new_testcases] at htc
  | cons page rest ih =>
    intro p0 tc htc
    by_cases hp : page.isEmpty = true
    · simp [load_new_testcases, hp] at htc
    · rw [Bool.not_eq_true] at hp
      simp only [load_new_testcases, hp, Bool.false_eq_true, if_false] at htc
      rcases List.mem_append.mp htc with htc | htc
      · obtain ⟨h1, h2, w, hw, hrest⟩ := scan_page_props page p0 tc htc
        refine ⟨h1, h2, w, ?_, hrest⟩
        rw [List.flatten_cons]
        exact List.mem_append.mpr (Or.inl hw)
      · obtain ⟨h1, h2, w, hw, hrest⟩ :=
          ih (scan_page supported tv page p0).2 tc htc
        refine ⟨fun hx =>
          h1 ((scan_page_processed page p0).1 tc.1 hx), h2, w, ?_, hrest⟩
        rw [List.flatten_cons]
        exact List.mem_append.mpr (Or.inr hw)

/-- The ids yielded by a whole polling run are pairwise distinct. -/
lemma load_nodup {supported : List String} {tv : Int → Bool} :
    ∀ (pages : List (List RemoteItem)) (p0 : List Nat),
      ((load_new_testcases supported tv pages p0).1.map
        (fun tc => tc.1)).Nodup := by
  intro pages
  induction pages with
  | nil => intro p0; simp [load_new_testcases]
  | cons page rest ih =>
    intro p0
    by_cases hp : page.isEmpty = true
    · simp [load_new_testcases, hp]
    · rw [Bool.not_eq_true] at hp
      simp only [load_new_testcases, hp, Bool.false_eq_true, if_false]
      rw [List.map_append, List.nodup_append]
      refine ⟨scan_page_nodup page p0, ih _, ?_⟩
      intro x hx hx2
      obtain ⟨tc, htc, rfl⟩ := List.mem_map.mp hx
      obtain ⟨tc2, htc2, hid2⟩ := List.mem_map.mp hx2
      have hin : tc.1 ∈ (scan_page supported tv page p0).2 :=
        (scan_page_processed page p0).2 tc htc
      have hout :=
        (load_props rest (scan_page supported tv page p0).2 tc2 htc2).1
      rw [hid2] at hout
      exact hout hin

/-- Pagination stops at the first empty page: everything after it is
ignored, and the number of queries is the number of nonempty pages plus
the final empty one. -/
lemma load_stop {supported : List String} {tv : Int → Bool} :
    ∀ (pre post : List (List RemoteItem)) (p0 : List Nat),
      (∀ pg ∈ pre, pg ≠ []) →
      load_new_testcases supported tv (pre ++ [] :: post) p0 =
        load_new_testcases supported tv (pre ++ [[]]) p0 ∧
      (load_new_testcases supported tv (pre ++ [] :: post) p0).2.2 =
        pre.length + 1 := by
  intro pre
  induction pre with
  | nil =>
    intro post p0 _
    exact ⟨by simp [load_new_testcases], by simp [load_new_testcases]⟩
  | cons pg pre ih =>
    intro post p0 hne
    have hpg : pg.isEmpty = false := by
      rw [← Bool.not_eq_true]
      intro hh
      exact hne pg (List.mem_cons_self _ _) (List.isEmpty_iff.mp hh)
    have hne2 : ∀ x ∈ pre, x ≠ [] :=
      fun x hx => hne x (List.mem_cons_of_mem pg hx)
    constructor
    · rw [List.cons_append, List.cons_append]
      simp only [load_new_testcases, hpg, Bool.false_eq_true, if_false]
      rw [(ih post (scan_page supported tv pg p0).2 hne2).1]
    · rw [List.cons_append]
      simp only [load_new_testcases, hpg, Bool.false_eq_true, if_false]
      rw [(ih post (scan_page supported tv pg p0).2 hne2).2]
      simp

/-- A polling run yields exactly what a single first-seen scan of the
consumed pages (those before the first empty page) yields. -/
lemma load_order {supported : List String} {tv : Int → Bool} :
    ∀ (pages : List (List RemoteItem)) (p0 : List Nat),
      (load_new_testcases supported tv pages p0).1 =
        (scan_page supported tv
          ((pages.takeWhile (fun pg => !pg.isEmpty)).flatten) p0).1 := by
  intro pages
  induction pages with
  | nil => intro p0; simp [load_new_testcases, scan_page]
  | cons page rest ih =>
    intro p0
    by_cases hp : page.isEmpty = true
    · rw [List.takeWhile_cons]
      simp [load_new_testcases, hp, scan_page]
    · rw [Bool.not_eq_true] at hp
      rw [List.takeWhile_cons]
      simp only [load_new_testcases, hp, Bool.false_eq_true, if_false,
        Bool.not_false, if_true, List.flatten_cons]
      rw [scan_page_append]
      simp only []
      rw [ih ((scan_page supported tv page p0).2)]

/-- C2.  Within one daemon run, new-testcase polling yields each id at
most once: the yielded list has pairwise distinct ids, every yielded pair
comes from a supported, time-valid item whose id was not yet in the
processed set (whether seeded by a prior run or added earlier in this
one), the yield order is the first-seen order of a single scan over the
consumed pages, and pagination stops at the first empty page (pages after
it contribute nothing and the query count is the nonempty-page count plus
one). -/
theorem load_new_testcases_spec (supported : List String) (tv : Int → Bool)
    (p0 : List Nat) (pages : List (List RemoteItem)) :
    ((load_new_testcases supported tv pages p0).1.map
      (fun tc => tc.1)).Nodup ∧
    (∀ tc ∈ (load_new_testcases supported tv pages p0).1,
      tc.1 ∉ p0 ∧ tc.2 ∈ supported ∧
      ∃ it ∈ pages.flatten, it.id = tc.1 ∧ it.jobType = tc.2 ∧
        tv it.timestamp = true) ∧
    (load_new_testcases supported tv pages p0).1 =
      (scan_page supported tv
        ((pages.takeWhile (fun pg => !pg.isEmpty)).flatten) p0).1 ∧
    (∀ pre post, pages = pre ++ [] :: post → (∀ pg ∈ pre, pg ≠ []) →
      load_new_testcases supported tv pages p0 =
        load_new_testcases supported tv (pre ++ [[]]) p0 ∧
      (load_new_testcases supported tv pages p0).2.2 = pre.length + 1) :=
  ⟨load_nodup pages p0, load_props pages p0, load_order pages p0,
   fun pre post hpages hne => by
     subst hpages
     exact load_stop pre post p0 hne⟩

/-- A full page for the polling witness: a supported new item, a
time-invalid item, an unsupported item, two occurrences of one id, and an
id already processed in a prior run. -/
def pollPage1 : List RemoteItem :=
  [⟨"supported0", 12345, 1⟩, ⟨"supported0", 555, 2⟩,
   ⟨"unsupported", 98765, 3⟩, ⟨"supported1", 23456, 4⟩,
   ⟨"supported0", 23456, 5⟩, ⟨"supported0", 1337, 6⟩]

/-- A page sitting after the empty page, which polling must never read. -/
def pollPostPage : List RemoteItem := [⟨"supported0", 7, 1⟩]

/-- Concrete witness for the polling theorem: with one full page, then the
empty page, then a further page, the run equals the run without the
trailing page and queries exactly two pages. -/
theorem load_new_testcases_spec_witness :
    load_new_testcases ["supported0", "supported1"]
        (fun t => decide (t ≠ 2))
        ([pollPage1] ++ [] :: [pollPostPage]) [1337] =
      load_new_testcases ["supported0", "supported1"]
        (fun t => decide (t ≠ 2)) ([pollPage1] ++ [[]]) [1337] ∧
    (load_new_testcases ["supported0", "supported1"]
        (fun t => decide (t ≠ 2))
        ([pollPage1] ++ [] :: [pollPostPage]) [1337]).2.2 =
      [pollPage1].length + 1 :=
  (load_new_testcases_spec ["supported0", "supported1"]
      (fun t => decide (t ≠ 2)) [1337]
      ([pollPage1] ++ [] :: [pollPostPage])).2.2.2
    [pollPage1] [pollPostPage] rfl (by decide)

/-- Events of one daemon run cycle, in the order they are performed. -/
inductive DaemonEvent
  | cleanDirs
  | prepareBinary (track : String)
  | updateAuth
  | runRepro (id : Nat) (flags : String)
  | sendRun (id : Nat) (label : String) (version : String) (track : String)
      (exitCode : Int) (logPreview : String) (flags : String)
  | backoffSleep (exitCode : Int)
deriving DecidableEq

/-- The two flag sets every testcase is run with in one cycle: no extra
flags, then the flags forcing the current checkout and shallow/skip-deps
behavior. -/
def RUN_FLAG_SETS : List String := ["", "--current --skip-deps -i 20"]

/-- Modelled from the spec: `daemon/main.reset_and_run_testcase`
(`daemon/main.py` is not under `src/`).  One run cycle resets the build
output and cache directories, prepares the binary for the run's track,
then for each flag set refreshes auth, runs the reproduction binary with
those flags, reports the outcome — testcase id, run label, binary
version, track, the run's exit code, the log preview, and the exact
invocation flags — to the telemetry sink, and sleeps per the exit code's
classification.  `runExit` gives the exit code of the run with the given
flags and `logsAfter` the log preview read after it. -/
def reset_and_run_testcase (id : Nat) (label track version : String)
    (runExit : String → Int) (logsAfter : String → String) :
    List DaemonEvent :=
  [DaemonEvent.cleanDirs, DaemonEvent.prepareBinary track] ++
    (RUN_FLAG_SETS.map (fun flags =>
      [DaemonEvent.updateAuth,
       DaemonEvent.runRepro id flags,
       DaemonEvent.sendRun id label version track (runExit flags)
         (logsAfter flags) flags,
       DaemonEvent.backoffSleep (runExit flags)])).flatten

/-- Recognizes a reproduction-binary execution event. -/
def isRunEvent : DaemonEvent → Bool
  | DaemonEvent.runRepro _ _ => true
  | _ => false

/-- Recognizes a telemetry report event. -/
def isReportEvent : DaemonEvent → Bool
  | DaemonEvent.sendRun _ _ _ _ _ _ _ => true
  | _ => false

/-- C6.  One run cycle executes the reproduction binary exactly twice —
once with no extra flags and once with `--current --skip-deps -i 20` —
and reports the two outcomes independently to the telemetry sink, each
report carrying the testcase id, run label, binary version, track, that
run's exit code, its log preview, and the exact flags it ran with. -/
theorem reset_and_run_testcase_spec (id : Nat)
    (label track version : String) (runExit : String → Int)
    (logsAfter : String → String) :
    (reset_and_run_testcase id label track version runExit
        logsAfter).filter isRunEvent =
      [DaemonEvent.runRepro id "",
       DaemonEvent.runRepro id "--current --skip-deps -i 20"] ∧
    (reset_and_run_testcase id label track version runExit
        logsAfter).filter isReportEvent =
      [DaemonEvent.sendRun id label version track (runExit "")
         (logsAfter "") "",
       DaemonEvent.sendRun id label version track
         (runExit "--current --skip-deps -i 20")
         (logsAfter "--current --skip-deps -i 20")
         "--current --skip-deps -i 20"] :=
  ⟨rfl, rfl⟩

/-- Modelled from the spec: `daemon/main.read_logs` (`daemon/main.py` is
not under `src/`).  For a missing path the result is an explicit message
naming the path; otherwise the preview is bounded to the byte budget
(`MAX_PREVIEW_LOG_BYTE_COUNT`, whose value is not in the available
sources, hence the parameter `maxBytes`) by dropping the head of the file
and keeping its last `maxBytes` bytes — the tail-read behavior the
repository's `ReadLogsTest` pins down (it seeks from the file's end and
requires `maxBytes` consecutive content bytes in the preview). -/
def read_logs (maxBytes : Nat) (path : PyStr) (file : Option PyStr) :
    PyStr :=
  match file with
  | none => path ++ " doesn".data ++ [Char.ofNat 39] ++ "t exist.".data
  | some content =>
    if content.length > maxBytes then
      content.drop (content.length - maxBytes)
    else content

/-- Counterexample to C8 as stated: with byte budget 5 and a 15-byte file
of `a`s, the preview is exactly the last 5 bytes of the file — a suffix
of the content, so it carries no truncation-marker bytes, and it contains
5 (that is, fully `maxBytes`) consecutive bytes of the file's content
rather than fewer. -/
theorem read_logs_counterexample :
    read_logs 5 "/log".data (some (List.replicate 15 'a')) =
      List.replicate 5 'a' ∧
    List.replicate 5 'a' <:+ List.replicate 15 'a' ∧
    (read_logs 5 "/log".data (some (List.replicate 15 'a'))).length = 5 :=
  ⟨by decide, ⟨List.replicate 10 'a', by decide⟩, by decide⟩

/-- C8 (amended).  For a file strictly larger than the byte budget, the
preview is exactly the last `maxBytes` bytes of the file: its length
equals the budget, it is head-truncated (a suffix of the content, with no
marker bytes added); for a missing path the result is the explicit
message `<path> doesn't exist.`, which contains the path. -/
theorem read_logs_spec (maxBytes : Nat) (path content : PyStr)
    (h : content.length > maxBytes) :
    read_logs maxBytes path (some content) =
      content.drop (content.length - maxBytes) ∧
    (read_logs maxBytes path (some content)).length = maxBytes ∧
    read_logs maxBytes path (some content) <:+ content ∧
    read_logs maxBytes path none =
      path ++ " doesn".data ++ [Char.ofNat 39] ++ "t exist.".data ∧
    path <+: read_logs maxBytes path none := by
  have hmain : read_logs maxBytes path (some content) =
      content.drop (content.length - maxBytes) := by
    simp only [read_logs]
    rw [if_pos h]
  refine ⟨hmain, ?_, ?_, rfl, ?_⟩
  · rw [hmain, List.length_drop]
    omega
  · rw [hmain]
    exact List.drop_suffix _ _
  · simp only [read_logs]
    exact (List.prefix_append _ _).trans
      ((List.prefix_append _ _).trans (List.prefix_append _ _))

/-- Concrete witness for the log-preview theorem: budget 3, a six-byte
file, and the missing-path message. -/
theorem read_logs_spec_witness :
    read_logs 3 "/log".data (some "abcdef".data) =
      "abcdef".data.drop ("abcdef".data.length - 3) ∧
    (read_logs 3 "/log".data (some "abcdef".data)).length = 3 ∧
    read_logs 3 "/log".data (some "abcdef".data) <:+ "abcdef".data ∧
    read_logs 3 "/log".data none =
      "/log".data ++ " doesn".data ++ [Char.ofNat 39] ++ "t exist.".data ∧
    "/log".data <+: read_logs 3 "/log".data none :=
  read_logs_spec 3 "/log".data "abcdef".data (by decide)

end ClusterFuzz
